import Mathlib

/-!
Verification of the playlist/state engine and local serving subsystem of
`podcasterator` (`main.go`), as a shallow embedding in Lean 4.

Modelling conventions:
* Go strings are modelled as Lean `String` (a list of Unicode scalars); for
  valid UTF-8, Go's byte-wise lexicographic string order coincides with the
  scalar-wise lexicographic order used here.
* Filesystem effects are modelled explicitly: an existence oracle
  `fs : String -> Bool` stands for `os.Stat` succeeding, and the success of a
  copy or rename (`copyFile`, `os.Rename`) is passed in as a `Bool` oracle.
* JSON (de)serialization of `AppState` (`json.MarshalIndent` followed by
  `json.Unmarshal` of the same bytes) is modelled as the identity on the
  record, which is what it is for this struct of strings and lists.
* UI-only concerns (widget refreshes, dialogs, labels) are dropped; each
  mutating method is embedded as a pure function from the relevant fields of
  `Podcasterator` to their new values.
-/

/-- `AudioFile` from `main.go`: one playlist entry. -/
structure AudioFile where
  ID : String
  OriginalPath : String
  TempPath : String
  DisplayName : String
deriving DecidableEq, Repr

/-- `AppState` from `main.go`: the persisted record (`state.json`). -/
structure AppState where
  Files : List AudioFile
  PodcastName : String
  ArtworkPath : String
deriving DecidableEq, Repr

/-- The domain-relevant fields of the `Podcasterator` struct:
`files`, `podcastName`, `artworkPath`. -/
structure Podcasterator where
  files : List AudioFile
  podcastName : String
  artworkPath : String
deriving DecidableEq, Repr

/-- The state a fresh process starts from (`main`): empty file list, podcast
name `"My Podcast"`, zero-valued artwork path. -/
def defaultState : Podcasterator :=
  { files := [], podcastName := "My Podcast", artworkPath := "" }

/-! ## List-manipulation operations of the Playlist Store -/

/-- Swap the elements at positions `i` and `j` of a list (the Go parallel
assignment `p.files[i], p.files[j] = p.files[j], p.files[i]`). Out-of-range
indices leave the list unchanged (the callers below always guard the range). -/
def listSwap (l : List AudioFile) (i j : Nat) : List AudioFile :=
  match l[i]?, l[j]? with
  | some a, some b => (l.set i b).set j a
  | _, _ => l

/-- `moveUp` from `main.go`: swaps `files[index]` with `files[index-1]` when
`index > 0 && index < len(files)`; otherwise a no-op. Go `int` indices are
modelled as `Int`. -/
def moveUp (files : List AudioFile) (index : Int) : List AudioFile :=
  if 0 < index ∧ index < (files.length : Int) then
    listSwap files index.toNat (index.toNat - 1)
  else files

/-- `moveDown` from `main.go`: swaps `files[index]` with `files[index+1]` when
`index >= 0 && index < len(files)-1`; otherwise a no-op. -/
def moveDown (files : List AudioFile) (index : Int) : List AudioFile :=
  if 0 ≤ index ∧ index < (files.length : Int) - 1 then
    listSwap files index.toNat (index.toNat + 1)
  else files

/-- `deleteFile` from `main.go`: returns unchanged when
`index < 0 || index >= len(files)`; otherwise removes the entry (the
`os.Remove` of the cached file is a filesystem effect, dropped here). -/
def deleteFile (files : List AudioFile) (index : Int) : List AudioFile :=
  if index < 0 ∨ (files.length : Int) ≤ index then files
  else files.eraseIdx index.toNat

/-- `reverse` from `main.go`: no-op on lists of length <= 1, otherwise builds
`reversed` with `reversed[len-1-i] = files[i]`, which is exactly list
reversal. -/
def reverse (files : List AudioFile) : List AudioFile :=
  if files.length ≤ 1 then files else files.reverse

/-- C6: `reverse` is an involution on the playlist: applying it twice restores
the original sequence, including for empty, singleton and odd-length lists. -/
theorem reverse_involution (files : List AudioFile) :
    reverse (reverse files) = files := by
  by_cases h : files.length ≤ 1
  · simp [reverse, h]
  · have h1 : ¬ files.reverse.length ≤ 1 := by simpa using h
    simp [reverse, h, h1]

/-- C8: each of `moveUp`, `moveDown`, `deleteFile` is a no-op (not an error)
for every index outside `[0, len)`, including every negative index; moreover
`moveUp` is a no-op at index 0 and `moveDown` at the last index. -/
theorem index_guards_noop (files : List AudioFile) (i : Int)
    (h : i < 0 ∨ (files.length : Int) ≤ i) :
    moveUp files i = files ∧ moveDown files i = files ∧
    deleteFile files i = files ∧
    moveUp files 0 = files ∧ moveDown files ((files.length : Int) - 1) = files := by
  refine ⟨?_, ?_, ?_, ?_, ?_⟩
  · unfold moveUp; rw [if_neg]; omega
  · unfold moveDown; rw [if_neg]; omega
  · unfold deleteFile; rw [if_pos]; omega
  · unfold moveUp; rw [if_neg]; omega
  · unfold moveDown; rw [if_neg]; omega

/-- Witness for C8 at a concrete playlist and concrete out-of-range indices. -/
theorem index_guards_noop_witness :
    let demo : List AudioFile :=
      [⟨"id1", "/a/x.mp3", "/cache/id1/x.mp3", "x.mp3"⟩,
       ⟨"id2", "/a/y.mp3", "/cache/id2/y.mp3", "y.mp3"⟩]
    moveUp demo (-3) = demo ∧ moveDown demo (-3) = demo ∧
    deleteFile demo (-3) = demo ∧
    moveUp demo 0 = demo ∧ moveDown demo ((demo.length : Int) - 1) = demo := by
  intro demo
  exact (index_guards_noop demo (-3) (by decide)).imp id
    (fun h => ⟨h.1, h.2.1, h.2.2.1, h.2.2.2⟩)

/-! ## Go string and path primitives

Shallow embeddings of the `strings`, `net/url` and `path/filepath` functions
the source uses, over `String.data` (lists of characters). -/

/-- `List`-level prefix test: `isPrefL pat s` is true iff `pat` is an initial
segment of `s` (char-wise). -/
def isPrefL : List Char → List Char → Bool
  | [], _ => true
  | _ :: _, [] => false
  | p :: ps, c :: cs => p == c && isPrefL ps cs

/-- `strings.HasPrefix(s, pre)`. -/
def strStartsWith (s pre : String) : Bool :=
  isPrefL pre.data s.data

/-- `List`-level substring test, used for `strings.Contains`. -/
def containsL (sub : List Char) : List Char → Bool
  | [] => isPrefL sub []
  | c :: cs => isPrefL sub (c :: cs) || containsL sub cs

/-- `strings.Contains(s, sub)`. -/
def containsSub (s sub : String) : Bool :=
  containsL sub.data s.data

/-- `strings.HasSuffix(s, suf)`. -/
def strEndsWith (s suf : String) : Bool :=
  isPrefL suf.data.reverse s.data.reverse

/-- `strings.TrimPrefix(s, pre)`: drops `pre` when it is a prefix of `s`,
otherwise returns `s` unchanged. -/
def trimPref (pre s : String) : String :=
  if strStartsWith s pre then ⟨s.data.drop pre.data.length⟩ else s

/-- `strings.TrimSuffix(s, suf)`. -/
def trimSuffix (s suf : String) : String :=
  if strEndsWith s suf then ⟨s.data.take (s.data.length - suf.data.length)⟩ else s

/-- Split a character list at the first `'/'`, if any
(`strings.SplitN(s, "/", 2)` core). -/
def splitOnceL : List Char → Option (List Char × List Char)
  | [] => none
  | c :: cs =>
    if c == '/' then some ([], cs)
    else match splitOnceL cs with
      | none => none
      | some (a, b) => some (c :: a, b)

/-- `strings.SplitN(s, "/", 2)`: a one- or two-element list. -/
def splitN2 (s : String) : List String :=
  match splitOnceL s.data with
  | none => [s]
  | some (a, b) => [⟨a⟩, ⟨b⟩]

/-- Value of a hexadecimal digit, if it is one (`url.ishex`/`unhex`). -/
def hexVal (c : Char) : Option Nat :=
  if '0' ≤ c ∧ c ≤ '9' then some (c.toNat - 48)
  else if 'a' ≤ c ∧ c ≤ 'f' then some (c.toNat - 87)
  else if 'A' ≤ c ∧ c ≤ 'F' then some (c.toNat - 55)
  else none

/-- Percent-decoding of `url.PathUnescape`: each `%XX` with two hex digits
becomes the character with code `XX`; a `%` not followed by two hex digits is
an `EscapeError`. -/
def unescapeL : List Char → Option (List Char)
  | [] => some []
  | c :: rest =>
    if c == '%' then
      match rest with
      | a :: b :: rest' =>
        match hexVal a, hexVal b with
        | some x, some y => (unescapeL rest').map (fun r => Char.ofNat (16 * x + y) :: r)
        | _, _ => none
      | _ => none
    else (unescapeL rest).map (fun r => c :: r)

/-- `url.PathUnescape` as used at the call site `decodedName, _ := ...`:
the error is discarded, and on error the returned value is the empty
string. -/
def pathUnescape (s : String) : String :=
  match unescapeL s.data with
  | none => ""
  | some l => ⟨l⟩

/-- Split a character list on `'/'` into segments (consecutive separators
yield empty segments). -/
def splitSlash : List Char → List (List Char)
  | [] => [[]]
  | c :: cs =>
    match splitSlash cs with
    | [] => [[]]
    | r :: rs => if c == '/' then [] :: r :: rs else (c :: r) :: rs

/-- The element-processing loop of `filepath.Clean` (Unix rules): drop empty
and `.` segments, resolve `..` against the stack, keep `..` only when the path
is relative and nothing can be popped. `acc` is the reversed stack. -/
def cleanStack (rooted : Bool) (acc : List (List Char)) :
    List (List Char) → List (List Char)
  | [] => acc
  | comp :: comps =>
    if comp = [] ∨ comp = ['.'] then cleanStack rooted acc comps
    else if comp = ['.', '.'] then
      match acc with
      | [] => cleanStack rooted (if rooted then [] else [['.', '.']]) comps
      | top :: rest =>
        if top = ['.', '.'] then cleanStack rooted (comp :: acc) comps
        else cleanStack rooted rest comps
    else cleanStack rooted (comp :: acc) comps

/-- `filepath.Clean` for Unix separators: shortest lexical equivalent of the
path (collapse separators, drop `.`, resolve `..`, `..` at the root
vanishes, empty result becomes `.`). -/
def clean (s : String) : String :=
  if s.data = [] then "."
  else
    let rooted := s.data.head? = some '/'
    let stack := (cleanStack rooted [] (splitSlash s.data)).reverse
    let body := List.intercalate ['/'] stack
    if rooted then ⟨'/' :: body⟩
    else if body = [] then "." else ⟨body⟩

/-- `filepath.Join`: drop empty elements, join with `/`, `Clean` the result;
all-empty input yields the empty string. -/
def joinPath (elems : List String) : String :=
  let ne := elems.filter (fun e => e ≠ "")
  if ne.isEmpty then "" else clean (String.intercalate "/" ne)

/-- `filepath.IsAbs` (Unix). -/
def isAbsPath (s : String) : Bool := strStartsWith s "/"

/-- `filepath.Abs`: `Clean` of the path itself when absolute, otherwise the
join with the working directory `cwd`. -/
def goAbs (cwd p : String) : String :=
  if isAbsPath p then clean p else joinPath [cwd, p]

/-- `filepath.Ext`: the suffix of the final element starting at its last dot,
empty when the final element has no dot. Helper on the reversed character
list; `acc` holds the characters already passed. -/
def extAux (acc : List Char) : List Char → List Char
  | [] => []
  | c :: cs =>
    if c == '/' then []
    else if c == '.' then '.' :: acc
    else extAux (c :: acc) cs

/-- `filepath.Ext`. -/
def goExt (p : String) : String := ⟨extAux [] p.data.reverse⟩

/-- Helper for `filepath.Dir`: on the reversed character list, drop
characters up to and including the position of the last `'/'` of the
original (keeping the slash itself, as `filepath.Split` does). -/
def dirAux : List Char → List Char
  | [] => []
  | c :: cs => if c == '/' then c :: cs else dirAux cs

/-- `filepath.Dir`: everything before the final element, `Clean`ed; `.` when
there is no separator. -/
def goDir (p : String) : String := clean ⟨(dirAux p.data.reverse).reverse⟩

/-- Helper for `filepath.Base`: on the reversed character list, the final
element (reversed). -/
def baseAux : List Char → List Char
  | [] => []
  | c :: cs => if c == '/' then [] else c :: baseAux cs

/-- `filepath.Base`: the last element of the path after dropping trailing
slashes; `"."` for the empty path, `"/"` when the path is all slashes. -/
def goBase (p : String) : String :=
  if p.data = [] then "."
  else
    let l := (p.data.reverse.dropWhile (fun c => c == '/')).reverse
    if l = [] then "/" else ⟨(baseAux l.reverse).reverse⟩

example : clean "/cache/abc/../x//y/" = "/cache/x/y" := by decide
example : clean "" = "." := by decide
example : clean "/.." = "/" := by decide
example : joinPath ["/cache", "id1", "x.mp3"] = "/cache/id1/x.mp3" := by decide
example : goExt "/a/b.c/song.mp3" = ".mp3" := by decide
example : goExt "/a/b.c/song" = "" := by decide
example : goDir "/cache/id1/x.mp3" = "/cache/id1" := by decide
example : goBase "/music/x.mp3" = "x.mp3" := by decide
example : pathUnescape "x%2Fy.mp3" = "x/y.mp3" := by decide
example : pathUnescape "x%zz" = "" := by decide
example : splitN2 "abc/x/y.mp3" = ["abc", "x/y.mp3"] := by decide
example : trimPref "/files/" "/files/abc/x.mp3" = "abc/x.mp3" := by decide

/-- `strings.ToLower`, character-wise (Go lowercases each rune; Lean's
byte-position-based `String.toLower` does not reduce in the kernel, so the
map is taken over the character list directly). -/
def lowerStr (s : String) : String := ⟨s.data.map Char.toLower⟩

/-! ## addFile (Playlist Store `add`) -/

/-- Number of playlist entries whose `OriginalPath` is exactly `p`. -/
def countPath (files : List AudioFile) (p : String) : Nat :=
  (files.filter (fun f => f.OriginalPath == p)).length

/-- `addFile` from `main.go`. The freshly drawn UUID is passed in as `id`,
and the success of `copyFile` as `copyOk`; `tempDir` is `p.tempDir`.
The duplicate check compares `f.OriginalPath == path` by exact string
equality; on a hit the function returns with no change. `.mp4`/`.m4b`
filenames are renamed to `.m4a`; a failed copy leaves the list unchanged. -/
def addFile (files : List AudioFile) (path : String) (id : String)
    (copyOk : Bool) (tempDir : String) : List AudioFile :=
  if files.any (fun f => f.OriginalPath == path) then files
  else
    let fileName := goBase path
    let ext := lowerStr (goExt fileName)
    let fileName :=
      if ext == ".mp4" || ext == ".m4b" then trimSuffix fileName ext ++ ".m4a"
      else fileName
    let tempPath := joinPath [tempDir, id, fileName]
    if copyOk then
      files ++ [{ ID := id, OriginalPath := path, TempPath := tempPath,
                  DisplayName := fileName }]
    else files

lemma countPath_pos_iff_any (files : List AudioFile) (p : String) :
    files.any (fun f => f.OriginalPath == p) = true ↔ 0 < countPath files p := by
  rw [List.any_eq_true]
  constructor
  · rintro ⟨f, hf, hp⟩
    have : f ∈ files.filter (fun f => f.OriginalPath == p) :=
      List.mem_filter.mpr ⟨hf, hp⟩
    exact List.length_pos.mpr (fun hnil => by simp [hnil] at this)
  · intro h
    rcases List.exists_mem_of_length_pos h with ⟨f, hf⟩
    rcases List.mem_filter.mp hf with ⟨h1, h2⟩
    exact ⟨f, h1, h2⟩

lemma countPath_append_self (files : List AudioFile) (e : AudioFile) (p : String)
    (he : e.OriginalPath = p) :
    countPath (files ++ [e]) p = countPath files p + 1 := by
  simp [countPath, List.filter_append, he]

lemma addFile_noop_of_any (files : List AudioFile) (path id tempDir : String)
    (ok : Bool) (hany : files.any (fun f => f.OriginalPath == path) = true) :
    addFile files path id ok tempDir = files := by
  unfold addFile
  rw [if_pos hany]

lemma addFile_appends (files : List AudioFile) (path id tempDir : String)
    (hany : files.any (fun f => f.OriginalPath == path) = false) :
    ∃ e, addFile files path id true tempDir = files ++ [e] ∧
      e.OriginalPath = path := by
  unfold addFile
  rw [if_neg (by simp [hany])]
  exact ⟨_, rfl, rfl⟩

/-- C7: `addFile` is idempotent with respect to the original path: when an
entry with `OriginalPath = path` already exists the playlist is returned
unchanged, and consequently two successive `addFile` calls with the same path
(the first copy succeeding, starting from a playlist holding at most one
entry for that path) leave exactly one entry for that path. -/
theorem addFile_dedup (files : List AudioFile) (path id1 id2 tempDir : String)
    (ok2 : Bool) (hcount : countPath files path ≤ 1) :
    ((∃ f ∈ files, f.OriginalPath = path) →
        ∀ id ok, addFile files path id ok tempDir = files) ∧
    countPath (addFile (addFile files path id1 true tempDir)
        path id2 ok2 tempDir) path = 1 := by
  constructor
  · rintro ⟨f, hf, hp⟩ id ok
    exact addFile_noop_of_any files path id tempDir ok
      (List.any_eq_true.mpr ⟨f, hf, by simp [hp]⟩)
  · by_cases hany : files.any (fun f => f.OriginalPath == path) = true
    · have h1 : countPath files path = 1 := by
        have := (countPath_pos_iff_any files path).mp hany; omega
      rw [addFile_noop_of_any files path id1 tempDir true hany,
        addFile_noop_of_any files path id2 tempDir ok2 hany]
      exact h1
    · have hany' : files.any (fun f => f.OriginalPath == path) = false :=
        Bool.eq_false_iff.mpr hany
      have h0 : countPath files path = 0 := by
        by_contra h
        exact hany ((countPath_pos_iff_any files path).mpr (Nat.pos_of_ne_zero h))
      obtain ⟨e, he, hep⟩ := addFile_appends files path id1 tempDir hany'
      rw [he]
      have hc1 : countPath (files ++ [e]) path = 1 := by
        rw [countPath_append_self files e path hep, h0]
      rw [addFile_noop_of_any (files ++ [e]) path id2 tempDir ok2
        ((countPath_pos_iff_any _ _).mpr (by omega))]
      exact hc1

/-- Witness for C7: two adds of the same path on an empty playlist leave one
entry for that path; an add of an already-present path is a no-op. -/
theorem addFile_dedup_witness :
    ((∃ f ∈ ([] : List AudioFile), f.OriginalPath = "/m/a.mp3") →
        ∀ id ok, addFile [] "/m/a.mp3" id ok "/cache" = []) ∧
    countPath (addFile (addFile [] "/m/a.mp3" "id1" true "/cache")
        "/m/a.mp3" "id2" true "/cache") "/m/a.mp3" = 1 :=
  addFile_dedup [] "/m/a.mp3" "id1" "id2" "/cache" true (by decide)

/-- C10: the duplicate check of `addFile` is exact, case-sensitive string
equality on `OriginalPath`: any two distinct path strings — even ones that
differ only in letter case and so denote the same file on a case-insensitive
filesystem — each produce their own entry. -/
theorem addFile_exact_string_dedup (p q id1 id2 tempDir : String) (hpq : p ≠ q) :
    (addFile (addFile [] p id1 true tempDir) q id2 true tempDir).map
      AudioFile.OriginalPath = [p, q] := by
  obtain ⟨e1, he1, he1p⟩ := addFile_appends [] p id1 tempDir (by simp)
  rw [he1]
  have hany : ([] ++ [e1]).any (fun f => f.OriginalPath == q) = false := by
    simp [he1p, hpq]
  obtain ⟨e2, he2, he2q⟩ := addFile_appends ([] ++ [e1]) q id2 tempDir hany
  rw [he2]
  simp [he1p, he2q]

/-- Witness for C10 at two paths differing only in case. -/
theorem addFile_exact_string_dedup_witness :
    (addFile (addFile [] "/m/B.mp3" "id1" true "/cache")
        "/m/b.mp3" "id2" true "/cache").map
      AudioFile.OriginalPath = ["/m/B.mp3", "/m/b.mp3"] :=
  addFile_exact_string_dedup "/m/B.mp3" "/m/b.mp3" "id1" "id2" "/cache"
    (by decide)

/-! ## Content types (C4) -/

/-- The feed-item content type from `launchServer`: starts at `"audio/mpeg"`
and switches to `"audio/mp4"` for `.m4a`/`.mp4`/`.m4b`; the extension is
taken from the entry's `TempPath`. -/
def feedMimeType (tempPath : String) : String :=
  let ext := lowerStr (goExt tempPath)
  if ext == ".m4a" || ext == ".mp4" || ext == ".m4b" then "audio/mp4"
  else "audio/mpeg"

/-- The `Content-Type` computed in the `/files/` handler: starts at
`"application/octet-stream"`, `.mp3` gives `"audio/mpeg"`,
`.m4a`/`.mp4`/`.m4b` give `"audio/mp4"`; the extension is taken from the
decoded name segment. -/
def serveContentType (decodedName : String) : String :=
  let ext := lowerStr (goExt decodedName)
  if ext == ".mp3" then "audio/mpeg"
  else if ext == ".m4a" || ext == ".mp4" || ext == ".m4b" then "audio/mp4"
  else "application/octet-stream"

/-- C4 counterexample: for an entry whose cached file and display name carry
the extension `.ogg` — unrecognized by the table — the feed declares
`audio/mpeg` while the `/files/` route returns `application/octet-stream`, so
the two sites do not share one mapping and the feed does not default to a
generic binary type. -/
theorem mime_tables_differ :
    let entry : AudioFile := ⟨"id1", "/m/x.ogg", "/cache/id1/x.ogg", "x.ogg"⟩
    feedMimeType entry.TempPath = "audio/mpeg" ∧
    serveContentType entry.DisplayName = "application/octet-stream" ∧
    feedMimeType entry.TempPath ≠ serveContentType entry.DisplayName := by
  exact ⟨by decide, by decide, by decide⟩

/-- C4 amended: for an entry whose cached-file extension and display-name
extension agree (as `addFile`/`renameFile` maintain), the feed type and the
route's `Content-Type` agree on every extension the table recognizes
(`.mp3`, `.m4a`, `.mp4`, `.m4b`); for every other extension the feed declares
`audio/mpeg` while the route declares `application/octet-stream`. -/
theorem mime_tables_amended (tempPath decodedName : String)
    (hext : lowerStr (goExt tempPath) = lowerStr (goExt decodedName)) :
    (lowerStr (goExt decodedName) ∈ [".mp3", ".m4a", ".mp4", ".m4b"] →
      feedMimeType tempPath = serveContentType decodedName) ∧
    (lowerStr (goExt decodedName) ∉ [".mp3", ".m4a", ".mp4", ".m4b"] →
      feedMimeType tempPath = "audio/mpeg" ∧
      serveContentType decodedName = "application/octet-stream") := by
  constructor
  · intro hmem
    simp only [List.mem_cons, List.not_mem_nil, or_false] at hmem
    unfold feedMimeType serveContentType
    rw [hext]
    rcases hmem with h | h | h | h
    all_goals rw [h]
    all_goals rfl
  · intro hnot
    simp only [List.mem_cons, List.not_mem_nil, or_false, not_or] at hnot
    obtain ⟨h1, h2, h3, h4⟩ := hnot
    unfold feedMimeType serveContentType
    rw [hext]
    simp [h1, h2, h3, h4]

/-- Witness for the amended C4 at `.mp3` (recognized) — both sides compute
`audio/mpeg`. -/
theorem mime_tables_amended_witness :
    feedMimeType "/cache/id1/x.mp3" = serveContentType "x.mp3" :=
  (mime_tables_amended "/cache/id1/x.mp3" "x.mp3" (by decide)).1 (by decide)

/-! ## Feed ordering timestamps (C3) -/

/-- `modifyFileDates` from `main.go`: entry `i` of `files` has its cached
file's modification time set to `baseTime + (fileCount - i - 1)` seconds, so
the first entry gets the newest date. Times are modelled as integer second
counts; the result lists each cached path with its assigned time. -/
def modifyFileDates (files : List AudioFile) (baseTime : Int) :
    List (String × Int) :=
  files.enum.map (fun pr =>
    (pr.2.TempPath, baseTime + ((files.length : Int) - (pr.1 : Int) - 1)))

/-- The guard of `launchServer`: a no-op when the server is running or the
playlist is empty; otherwise `modifyFileDates` runs (immediately before the
feed items are built). -/
def launchTimes (serverRunning : Bool) (files : List AudioFile)
    (baseTime : Int) : Option (List (String × Int)) :=
  if serverRunning || files.length == 0 then none
  else some (modifyFileDates files baseTime)

lemma modifyFileDates_getElem? (files : List AudioFile) (baseTime : Int)
    (i : Nat) :
    (modifyFileDates files baseTime)[i]? =
      files[i]?.map (fun f =>
        (f.TempPath, baseTime + ((files.length : Int) - (i : Int) - 1))) := by
  unfold modifyFileDates
  rw [List.getElem?_map, List.getElem?_enum]
  cases files[i]? <;> rfl

/-- C3: when a launch proceeds (server not running, playlist non-empty),
every cached file's assigned modification time is determined solely by its
playlist position — entry `i` receives `baseTime + (n - i - 1)` — so entry 0
receives the most recent time, each subsequent entry is exactly one second
earlier than its predecessor, and times strictly decrease along the
playlist. -/
theorem launch_timestamps_by_position (files : List AudioFile)
    (baseTime : Int) (hne : files ≠ []) :
    launchTimes false files baseTime = some (modifyFileDates files baseTime) ∧
    (∀ i : Nat, ∀ f : AudioFile, files[i]? = some f →
      (modifyFileDates files baseTime)[i]? =
        some (f.TempPath, baseTime + ((files.length : Int) - (i : Int) - 1))) ∧
    (∀ i : Nat, i + 1 < files.length →
      baseTime + ((files.length : Int) - ((i : Int) + 1) - 1) =
        (baseTime + ((files.length : Int) - (i : Int) - 1)) - 1) ∧
    (∀ i j : Nat, i < j → j < files.length →
      baseTime + ((files.length : Int) - (j : Int) - 1) <
        baseTime + ((files.length : Int) - (i : Int) - 1)) ∧
    (∀ i : Nat, i < files.length →
      baseTime + ((files.length : Int) - (i : Int) - 1) ≤
        baseTime + ((files.length : Int) - (0 : Int) - 1)) := by
  refine ⟨?_, ?_, ?_, ?_, ?_⟩
  · unfold launchTimes
    rw [if_neg]
    simp [List.length_eq_zero, hne]
  · intro i f hf
    rw [modifyFileDates_getElem?, hf]
    rfl
  · intro i _; ring
  · intro i j hij _; omega
  · intro i _; omega

/-- Witness for C3 on a concrete three-entry playlist. -/
theorem launch_timestamps_by_position_witness :
    let demo : List AudioFile :=
      [⟨"a", "/m/a.mp3", "/cache/a/a.mp3", "a.mp3"⟩,
       ⟨"b", "/m/b.mp3", "/cache/b/b.mp3", "b.mp3"⟩,
       ⟨"c", "/m/c.mp3", "/cache/c/c.mp3", "c.mp3"⟩]
    launchTimes false demo 100 = some (modifyFileDates demo 100) ∧
    (modifyFileDates demo 100)[0]? = some ("/cache/a/a.mp3", 102) ∧
    (100 : Int) + ((demo.length : Int) - (2 : Int) - 1) <
      100 + ((demo.length : Int) - (1 : Int) - 1) := by
  intro demo
  have h := launch_timestamps_by_position demo 100 (by decide)
  refine ⟨h.1, ?_, h.2.2.2.1 1 2 (by decide) (by decide)⟩
  have := h.2.1 0 ⟨"a", "/m/a.mp3", "/cache/a/a.mp3", "a.mp3"⟩ (by decide)
  simpa using this

/-! ## State persistence (C2) -/

/-- `saveState` from `main.go`: marshals `{files, podcastName, artworkPath}`
into the `state.json` record. Serialization of this struct is lossless, so
the persisted record is modelled as the `AppState` value itself. -/
def saveState (p : Podcasterator) : AppState :=
  { Files := p.files, PodcastName := p.podcastName, ArtworkPath := p.artworkPath }

/-- `loadState` from `main.go`, applied to a record `st` that was read and
unmarshalled successfully. `fs` tells which paths exist (`os.Stat`).
Entries whose `TempPath` no longer exists are dropped (in order); the podcast
name is overwritten only when the loaded one is non-empty; the artwork path
only when non-empty and existing on disk. -/
def loadState (st : AppState) (fs : String → Bool) (p : Podcasterator) :
    Podcasterator :=
  { files := st.Files.filter (fun f => fs f.TempPath),
    podcastName := if st.PodcastName ≠ "" then st.PodcastName else p.podcastName,
    artworkPath :=
      if st.ArtworkPath ≠ "" ∧ fs st.ArtworkPath = true then st.ArtworkPath
      else p.artworkPath }

/-- C2 counterexample: the round trip fails for a state whose podcast title
is the empty string, even though every entry's cached file exists (there are
none): loading after saving yields the default title `"My Podcast"`, not the
saved state. -/
theorem load_save_not_roundtrip :
    let S : Podcasterator := { files := [], podcastName := "", artworkPath := "" }
    (∀ f ∈ S.files, (fun _ => true : String → Bool) f.TempPath = true) ∧
    loadState (saveState S) (fun _ => true) defaultState ≠ S := by
  exact ⟨by simp, by decide⟩

/-- C2 amended: `load(save(S)) = S` provided every entry's cached file exists,
the podcast title is non-empty, and the artwork path is empty or its file
exists; moreover — for any existence oracle — the loaded playlist is exactly
the saved one with the entries whose cached file is gone dropped, all
remaining entries kept in their original order. -/
theorem load_save_roundtrip (S : Podcasterator) (fs : String → Bool)
    (hf : ∀ f ∈ S.files, fs f.TempPath = true)
    (hn : S.podcastName ≠ "")
    (ha : S.artworkPath = "" ∨ fs S.artworkPath = true) :
    loadState (saveState S) fs defaultState = S ∧
    (∀ fs' : String → Bool,
      (loadState (saveState S) fs' defaultState).files =
        S.files.filter (fun f => fs' f.TempPath)) := by
  constructor
  · unfold loadState saveState
    have hfiles : S.files.filter (fun f => fs f.TempPath) = S.files :=
      List.filter_eq_self.mpr hf
    have hart : (if S.artworkPath ≠ "" ∧ fs S.artworkPath = true
        then S.artworkPath else defaultState.artworkPath) = S.artworkPath := by
      rcases ha with h | h
      · rw [if_neg (by simp [h])]; simp [defaultState, h]
      · by_cases he : S.artworkPath = ""
        · rw [if_neg (by simp [he])]; simp [defaultState, he]
        · rw [if_pos ⟨he, h⟩]
    simp only [hfiles, if_pos hn, hart]
  · intro fs'
    rfl

/-- Witness for the amended C2 at a concrete one-entry state: the round trip
restores it, and deleting its cached file makes the entry absent on load. -/
theorem load_save_roundtrip_witness :
    let S : Podcasterator :=
      { files := [⟨"id1", "/m/a.mp3", "/cache/id1/a.mp3", "a.mp3"⟩],
        podcastName := "Show", artworkPath := "" }
    loadState (saveState S) (fun s => s == "/cache/id1/a.mp3") defaultState = S ∧
    (loadState (saveState S) (fun _ => false) defaultState).files =
      S.files.filter (fun f => (fun _ => false : String → Bool) f.TempPath) := by
  intro S
  have h := load_save_roundtrip S (fun s => s == "/cache/id1/a.mp3")
    (by intro f hf; simp at hf; rw [hf]; rfl) (by decide) (Or.inl rfl)
  exact ⟨h.1, h.2 (fun _ => false)⟩

/-! ## renameFile (C9) -/

/-- `renameFile` from `main.go`, at the point where the dialog is confirmed
with text `newName`. A no-op when the index is out of range, the new name is
empty, or equals the current display name. Otherwise the old display name's
extension is appended when `newName` has none, the cached file is renamed to
`Dir(TempPath)/newName`, and — only if `os.Rename` succeeded (`renameOk`) —
the entry's `DisplayName` and `TempPath` are updated. -/
def renameFile (files : List AudioFile) (index : Int) (newName : String)
    (renameOk : Bool) : List AudioFile :=
  if index < 0 ∨ (files.length : Int) ≤ index then files
  else
    match files[index.toNat]? with
    | none => files
    | some f =>
      if newName == "" || newName == f.DisplayName then files
      else
        let oldExt := goExt f.DisplayName
        let n := if goExt newName == "" then newName ++ oldExt else newName
        let newTempPath := joinPath [goDir f.TempPath, n]
        if renameOk then
          files.set index.toNat
            { f with DisplayName := n, TempPath := newTempPath }
        else files

/-- C9: for an in-range rename, a new name without an extension gets the old
entry's extension appended (both in the display name and in the renamed
cached path), and a rename whose filesystem step fails leaves the playlist —
in particular the entry's `DisplayName` and `TempPath` — unchanged. -/
theorem renameFile_ext_and_atomic (files : List AudioFile) (index : Int)
    (newName : String) (f : AudioFile)
    (hidx : 0 ≤ index ∧ index < (files.length : Int))
    (hf : files[index.toNat]? = some f) :
    renameFile files index newName false = files ∧
    (goExt newName = "" → newName ≠ "" → newName ≠ f.DisplayName →
      (renameFile files index newName true)[index.toNat]? =
        some { f with
          DisplayName := newName ++ goExt f.DisplayName,
          TempPath := joinPath [goDir f.TempPath,
            newName ++ goExt f.DisplayName] }) := by
  have hrange : ¬ (index < 0 ∨ (files.length : Int) ≤ index) := by omega
  have hlt : index.toNat < files.length := by
    rcases List.getElem?_eq_some_iff.mp hf with ⟨h, _⟩
    exact h
  constructor
  · unfold renameFile
    rw [if_neg hrange]
    split
    · rfl
    · split
      · rfl
      · simp
  · intro hext hne hneq
    have hg1 : (newName == "" || newName == f.DisplayName) = false := by
      simp [hne, hneq]
    have hg2 : (goExt newName == "") = true := by simp [hext]
    unfold renameFile
    rw [if_neg hrange]
    simp only [hf, hg1, hg2, Bool.false_eq_true, if_false, if_true]
    exact List.getElem?_set_eq_of_lt _ hlt

/-- Witness for C9: renaming entry 0 to the extensionless `"intro"` appends
`.mp3`; a failed filesystem rename leaves the playlist unchanged. -/
theorem renameFile_ext_and_atomic_witness :
    let demo : List AudioFile := [⟨"id1", "/m/a.mp3", "/cache/id1/a.mp3", "a.mp3"⟩]
    renameFile demo 0 "intro" false = demo ∧
    ((goExt "intro" = "") → ("intro" ≠ "") → ("intro" ≠ "a.mp3") →
      (renameFile demo 0 "intro" true)[(0 : Int).toNat]? =
        some ⟨"id1", "/m/a.mp3", joinPath [goDir "/cache/id1/a.mp3",
          "intro" ++ goExt "a.mp3"], "intro" ++ goExt "a.mp3"⟩) := by
  intro demo
  exact renameFile_ext_and_atomic demo 0 "intro"
    ⟨"id1", "/m/a.mp3", "/cache/id1/a.mp3", "a.mp3"⟩ (by decide) (by decide)

/-! ## The `/files/{id}/{encodedName}` route (C1) -/

/-- Outcome of one request to the `/files/` handler: the three
`http.Error` responses or `http.ServeFile` of a path with a `Content-Type`. -/
inductive Response where
  | badRequest : Response
  | forbidden : Response
  | notFound : Response
  | serve : String → String → Response
deriving DecidableEq, Repr

/-- The `mux.HandleFunc("/files/", ...)` body from `launchServer`, from the
decoded request path `urlPath` (`r.URL.Path`). `fs` is the `os.Stat`
existence oracle and `cwd` the working directory used by `filepath.Abs`.
Steps exactly as in the source: split off `/files/`, split once on `/`;
400 unless two parts; 400 if the id contains `..`, `/` or `\`; 400 if the
percent-decoded name contains `..` or begins with `/` or `\`; join
`tempDir/id/decodedName`; 403 unless the absolute path still has the absolute
temp dir as a string prefix; 404 if the file does not exist; otherwise serve
it with the extension-derived content type. -/
def filesHandler (tempDir cwd : String) (fs : String → Bool)
    (urlPath : String) : Response :=
  match splitN2 (trimPref "/files/" urlPath) with
  | [idSeg, rawName] =>
    let decodedName := pathUnescape rawName
    if containsSub idSeg ".." || containsSub idSeg "/" ||
        containsSub idSeg "\\" then .badRequest
    else if containsSub decodedName ".." || strStartsWith decodedName "/" ||
        strStartsWith decodedName "\\" then .badRequest
    else
      let filePath := joinPath [tempDir, idSeg, decodedName]
      let absTemp := goAbs cwd tempDir
      let absFile := goAbs cwd filePath
      if !strStartsWith absFile absTemp then .forbidden
      else if !fs filePath then .notFound
      else .serve filePath (serveContentType decodedName)
  | _ => .badRequest

/-- C1 counterexample: the request `GET /files/abc/x%2Fy.mp3` — whose decoded
name segment `x/y.mp3` contains the path separator `/` — is *not* answered
with a client error: when the file exists the handler serves its bytes,
because the source checks the decoded name only with `strings.HasPrefix` for
separators, not `strings.Contains`. -/
theorem files_route_serves_separator_name :
    containsSub (pathUnescape "x%2Fy.mp3") "/" = true ∧
    filesHandler "/cache" "/" (fun _ => true) "/files/abc/x%2Fy.mp3" =
      Response.serve "/cache/abc/x/y.mp3" "audio/mpeg" := by
  constructor
  · decide
  · decide

/-- C1 amended: a `/files/{id}/{name}` request is rejected with `400` —
and no file bytes are served — whenever the id segment contains `..`, `/`
or `\`, or the decoded name segment contains `..` or *begins with* `/` or
`\`. (A separator strictly inside the decoded name is not rejected; the
resolved path is still confined to the cache root by the prefix check.) -/
theorem files_route_rejects (tempDir cwd : String) (fs : String → Bool)
    (urlPath idSeg rawName : String)
    (hp : splitN2 (trimPref "/files/" urlPath) = [idSeg, rawName])
    (hbad : containsSub idSeg ".." = true ∨ containsSub idSeg "/" = true ∨
      containsSub idSeg "\\" = true ∨
      containsSub (pathUnescape rawName) ".." = true ∨
      strStartsWith (pathUnescape rawName) "/" = true ∨
      strStartsWith (pathUnescape rawName) "\\" = true) :
    filesHandler tempDir cwd fs urlPath = Response.badRequest := by
  unfold filesHandler
  rw [hp]
  rcases hbad with h | h | h | h | h | h <;>
    simp [h]

/-- Witness for the amended C1: a request whose id segment contains `..` and
one whose decoded name starts with an (encoded) `/` are both answered 400. -/
theorem files_route_rejects_witness :
    filesHandler "/cache" "/" (fun _ => true) "/files/a..b/x.mp3" =
      Response.badRequest ∧
    filesHandler "/cache" "/" (fun _ => true) "/files/abc/%2Fetc" =
      Response.badRequest := by
  constructor
  · exact files_route_rejects "/cache" "/" (fun _ => true)
      "/files/a..b/x.mp3" "a..b" "x.mp3" (by decide) (Or.inl (by decide))
  · exact files_route_rejects "/cache" "/" (fun _ => true)
      "/files/abc/%2Fetc" "abc" "%2Fetc" (by decide)
      (Or.inr (Or.inr (Or.inr (Or.inr (Or.inl (by decide))))))

/-! ## alphabetize (C5) -/

/-- Lexicographic strict comparison of character lists by code point.
For valid UTF-8 this is exactly Go's byte-wise `<` on strings. -/
def ltL : List Char → List Char → Bool
  | [], [] => false
  | [], _ :: _ => true
  | _ :: _, [] => false
  | a :: as, b :: bs =>
    if a.toNat < b.toNat then true
    else if b.toNat < a.toNat then false
    else ltL as bs

/-- Go's `x > y` on strings. -/
def strGt (x y : String) : Bool := ltL y.data x.data

/-- The sort key of `alphabetize`: `strings.ToLower(DisplayName)`. -/
def lkey (f : AudioFile) : String := lowerStr f.DisplayName

/-- `a` precedes-or-equals `b` in the alphabetize order: the comparison
`ToLower(a) > ToLower(b)` is false. -/
def keyLE (a b : AudioFile) : Prop := strGt (lkey a) (lkey b) = false

lemma ltL_irrefl (l : List Char) : ltL l l = false := by
  induction l with
  | nil => rfl
  | cons a as ih => simp [ltL, ih]

lemma ltL_trans : ∀ a b c : List Char,
    ltL a b = true → ltL b c = true → ltL a c = true := by
  intro a
  induction a with
  | nil =>
    intro b c h1 h2
    cases b with
    | nil => exact absurd h1 (by simp [ltL])
    | cons z zs =>
      cases c with
      | nil => exact absurd h2 (by simp [ltL])
      | cons y ys => simp [ltL]
  | cons x xs ih =>
    intro b c h1 h2
    cases b with
    | nil => exact absurd h1 (by simp [ltL])
    | cons z zs =>
      cases c with
      | nil => exact absurd h2 (by simp [ltL])
      | cons y ys =>
        simp only [ltL] at h1 h2 ⊢
        split_ifs at h1 h2 ⊢ <;>
          first
          | rfl
          | omega
          | exact absurd h1 (by decide)
          | exact absurd h2 (by decide)
          | exact ih zs ys h1 h2

lemma ltL_le_trans : ∀ a b c : List Char,
    ltL b a = false → ltL c b = false → ltL c a = false := by
  intro a
  induction a with
  | nil =>
    intro b c h1 h2
    cases c with
    | nil => rfl
    | cons x xs => rfl
  | cons y ys ih =>
    intro b c h1 h2
    cases b with
    | nil => exact absurd h1 (by simp [ltL])
    | cons z zs =>
      cases c with
      | nil => exact absurd h2 (by simp [ltL])
      | cons x xs =>
        simp only [ltL] at h1 h2 ⊢
        split_ifs at h1 h2 ⊢ <;>
          first
          | rfl
          | omega
          | exact absurd h1 (by decide)
          | exact absurd h2 (by decide)
          | exact ih zs xs h1 h2

/-- One truncated bubble pass of `alphabetize`: `bpass j l` performs the
first `j` adjacent comparison-and-swap steps (the inner loop
`for j := 0; j < n-i-1; j++`), swapping when
`ToLower(l[j].DisplayName) > ToLower(l[j+1].DisplayName)`. -/
def bpass : Nat → List AudioFile → List AudioFile
  | 0, l => l
  | _ + 1, [] => []
  | _ + 1, [a] => [a]
  | j + 1, a :: b :: rest =>
    if strGt (lkey a) (lkey b) then b :: bpass j (a :: rest)
    else a :: bpass j (b :: rest)

/-- The outer loop of `alphabetize`: pass `i` of `for i := 0; i < n-1; i++`
performs `n-i-1` comparisons, so the passes run `bpass (c+1)`, `bpass c`,
..., `bpass 1`. -/
def outerPasses : Nat → List AudioFile → List AudioFile
  | 0, l => l
  | c + 1, l => outerPasses c (bpass (c + 1) l)

/-- `alphabetize` from `main.go`: a no-op on 0 or 1 entries, otherwise the
bubble sort above with `n-1` passes. -/
def alphabetize (l : List AudioFile) : List AudioFile :=
  if l.length ≤ 1 then l else outerPasses (l.length - 1) l

/-- An unbounded bubble pass (enough fuel for the whole list); `bpass` is
this pass applied to a prefix. Proof device only. -/
def bfull : List AudioFile → List AudioFile
  | [] => []
  | [a] => [a]
  | a :: b :: rest =>
    if strGt (lkey a) (lkey b) then b :: bfull (a :: rest)
    else a :: bfull (b :: rest)
termination_by l => l.length

lemma bfull_perm (l : List AudioFile) : (bfull l).Perm l := by
  induction l using bfull.induct with
  | case1 => simp [bfull]
  | case2 a => simp [bfull]
  | case3 a b rest h ih =>
    rw [bfull, if_pos h]
    exact (ih.cons b).trans (List.Perm.swap a b rest)
  | case4 a b rest h ih =>
    rw [bfull, if_neg h]
    exact ih.cons a

lemma bfull_ne_nil {l : List AudioFile} (h : l ≠ []) : bfull l ≠ [] := by
  intro h0
  apply h
  have := (bfull_perm l).length_eq
  rw [h0] at this
  exact List.length_eq_zero.mp this.symm

lemma bfull_last_max (l : List AudioFile) :
    ∀ x ∈ bfull l, ∀ y, (bfull l).getLast? = some y → keyLE x y := by
  induction l using bfull.induct with
  | case1 => intro x hx; simp [bfull] at hx
  | case2 a =>
    intro x hx y hy
    simp [bfull] at hx hy
    rw [hx, hy]
    exact ltL_irrefl _
  | case3 a b rest h ih =>
    rw [bfull, if_pos h]
    intro x hx y hy
    have hM : bfull (a :: rest) ≠ [] := bfull_ne_nil (by simp)
    obtain ⟨m, M', hMM⟩ := List.exists_cons_of_ne_nil hM
    rw [hMM, List.getLast?_cons_cons] at hy
    have hyM : (bfull (a :: rest)).getLast? = some y := by rw [hMM]; exact hy
    rcases List.mem_cons.mp hx with rfl | hxM
    · have haM : a ∈ bfull (a :: rest) := (bfull_perm (a :: rest)).mem_iff.mpr (by simp)
      have hay : keyLE a y := ih a haM y hyM
      unfold keyLE strGt at hay ⊢
      unfold strGt at h
      by_contra hxy
      rw [Bool.not_eq_false] at hxy
      have := ltL_trans _ _ _ hxy h
      rw [this] at hay
      exact absurd hay (by decide)
    · exact ih x hxM y hyM
  | case4 a b rest h ih =>
    rw [bfull, if_neg h]
    intro x hx y hy
    have hM : bfull (b :: rest) ≠ [] := bfull_ne_nil (by simp)
    obtain ⟨m, M', hMM⟩ := List.exists_cons_of_ne_nil hM
    rw [hMM, List.getLast?_cons_cons] at hy
    have hyM : (bfull (b :: rest)).getLast? = some y := by rw [hMM]; exact hy
    rcases List.mem_cons.mp hx with rfl | hxM
    · have hbM : b ∈ bfull (b :: rest) := (bfull_perm (b :: rest)).mem_iff.mpr (by simp)
      have hby : keyLE b y := ih b hbM y hyM
      have hab : keyLE x b := Bool.eq_false_iff.mpr h
      exact ltL_le_trans _ _ _ hab hby
    · exact ih x hxM y hyM

lemma bfull_sorted_id (l : List AudioFile) (hs : List.Chain' keyLE l) :
    bfull l = l := by
  induction l using bfull.induct with
  | case1 => rw [bfull]
  | case2 a => rw [bfull]
  | case3 a b rest h ih =>
    exfalso
    have hab : keyLE a b := (List.chain'_cons.mp hs).1
    rw [keyLE, h] at hab
    exact absurd hab (by decide)
  | case4 a b rest h ih =>
    rw [bfull, if_neg h, ih (List.chain'_cons.mp hs).2]

lemma bfull_filter (l : List AudioFile) (k : String) :
    (bfull l).filter (fun f => lkey f == k) =
      l.filter (fun f => lkey f == k) := by
  induction l using bfull.induct with
  | case1 => rw [bfull]
  | case2 a => rw [bfull]
  | case3 a b rest h ih =>
    rw [bfull, if_pos h]
    by_cases hqa : (lkey a == k) = true <;> by_cases hqb : (lkey b == k) = true
    · exfalso
      rw [beq_iff_eq] at hqa hqb
      rw [strGt, hqa, hqb, ltL_irrefl] at h
      exact absurd h (by decide)
    all_goals simp [List.filter_cons, hqa, hqb] at ih ⊢
    all_goals simp [ih]
  | case4 a b rest h ih =>
    rw [bfull, if_neg h]
    by_cases hqa : (lkey a == k) = true <;>
      simp [List.filter_cons, hqa] at ih ⊢ <;> simp [ih]

lemma bpass_eq (c : Nat) (l : List AudioFile) :
    bpass c l = bfull (l.take (c + 1)) ++ l.drop (c + 1) := by
  induction c generalizing l with
  | zero =>
    cases l with
    | nil => rw [bpass]; rw [List.take_nil, List.drop_nil]; rw [bfull]; rfl
    | cons a rest =>
      rw [bpass, List.take_succ_cons, List.take_zero, List.drop_succ_cons,
        List.drop_zero]
      rw [bfull]
      rfl
  | succ c ih =>
    match l with
    | [] => rw [bpass]; simp [bfull]
    | [a] =>
      rw [bpass]
      rw [List.take_succ_cons, List.drop_succ_cons, List.take_nil, List.drop_nil]
      rw [bfull]
      rfl
    | a :: b :: rest =>
      rw [bpass, List.take_succ_cons, List.take_succ_cons, List.drop_succ_cons,
        List.drop_succ_cons]
      by_cases h : strGt (lkey a) (lkey b) = true
      · rw [if_pos h, bfull, if_pos h, ih (a :: rest), List.take_succ_cons,
          List.drop_succ_cons]
        rfl
      · rw [if_neg h, bfull, if_neg h, ih (b :: rest), List.take_succ_cons,
          List.drop_succ_cons]
        rfl

lemma outerPasses_sorted (c : Nat) :
    ∀ l : List AudioFile, List.Chain' keyLE (l.drop (c + 1)) →
      (∀ x ∈ l.take (c + 1), ∀ y ∈ l.drop (c + 1), keyLE x y) →
      List.Chain' keyLE (outerPasses c l) := by
  induction c with
  | zero =>
    intro l h1 h2
    rw [outerPasses]
    cases l with
    | nil => exact List.chain'_nil
    | cons a rest =>
      rw [List.chain'_cons']
      constructor
      · intro y hy
        exact h2 a (by simp) y (by simpa using List.mem_of_mem_head? hy)
      · simpa using h1
  | succ c ih =>
    intro l h1 h2
    rw [outerPasses]
    by_cases hlen : l.length ≤ c + 1
    · have ht : l.take (c + 2) = l := List.take_of_length_le (by omega)
      have hd : l.drop (c + 2) = [] := List.drop_eq_nil_of_le (by omega)
      have hb : bpass (c + 1) l = bfull l := by
        rw [bpass_eq, ht, hd, List.append_nil]
      have hbl : (bpass (c + 1) l).length = l.length := by
        rw [hb]; exact (bfull_perm l).length_eq
      apply ih
      · rw [List.drop_eq_nil_of_le (by omega)]
        exact List.chain'_nil
      · intro x hx y hy
        rw [List.drop_eq_nil_of_le (by omega)] at hy
        exact absurd hy (List.not_mem_nil y)
    · push_neg at hlen
      have hbp : bpass (c + 1) l = bfull (l.take (c + 2)) ++ l.drop (c + 2) :=
        bpass_eq (c + 1) l
      have hlB : (bfull (l.take (c + 2))).length = c + 2 := by
        rw [(bfull_perm _).length_eq, List.length_take]
        omega
      have hBne : bfull (l.take (c + 2)) ≠ [] := by
        intro h0; rw [h0] at hlB; simp at hlB
      have hsplit :
          (bfull (l.take (c + 2))).dropLast ++
            [(bfull (l.take (c + 2))).getLast hBne] = bfull (l.take (c + 2)) :=
        List.dropLast_append_getLast hBne
      have hys_len : (bfull (l.take (c + 2))).dropLast.length = c + 1 := by
        rw [List.length_dropLast, hlB]
        omega
      have hylast :
          (bfull (l.take (c + 2))).getLast? =
            some ((bfull (l.take (c + 2))).getLast hBne) :=
        List.getLast?_eq_getLast_of_ne_nil hBne
      have hyt : (bfull (l.take (c + 2))).getLast hBne ∈ l.take (c + 2) :=
        (bfull_perm _).subset (List.getLast_mem hBne)
      have hdropB :
          (bfull (l.take (c + 2))).drop (c + 1) =
            [(bfull (l.take (c + 2))).getLast hBne] := by
        conv_lhs => rw [← hsplit]
        rw [List.drop_append_eq_append_drop, hys_len, Nat.sub_self,
          List.drop_zero, List.drop_eq_nil_of_le (le_of_eq hys_len),
          List.nil_append]
      have htakeB :
          (bfull (l.take (c + 2))).take (c + 1) =
            (bfull (l.take (c + 2))).dropLast := by
        conv_lhs => rw [← hsplit]
        rw [List.take_append_eq_append_take, hys_len, Nat.sub_self,
          List.take_zero, List.take_of_length_le (le_of_eq hys_len),
          List.append_nil]
      have hdrop :
          (bpass (c + 1) l).drop (c + 1) =
            (bfull (l.take (c + 2))).getLast hBne :: l.drop (c + 2) := by
        rw [hbp, List.drop_append_eq_append_drop, hdropB, hlB,
          Nat.sub_eq_zero_of_le (by omega), List.drop_zero,
          List.singleton_append]
      have htake :
          (bpass (c + 1) l).take (c + 1) =
            (bfull (l.take (c + 2))).dropLast := by
        rw [hbp, List.take_append_eq_append_take, htakeB, hlB,
          Nat.sub_eq_zero_of_le (by omega), List.take_zero,
          List.append_nil]
      apply ih
      · rw [hdrop, List.chain'_cons']
        constructor
        · intro z hz
          exact h2 _ hyt z (List.mem_of_mem_head? hz)
        · exact h1
      · intro x hx z hz
        rw [htake] at hx
        rw [hdrop] at hz
        have hxB : x ∈ bfull (l.take (c + 2)) := by
          rw [← hsplit]
          exact List.mem_append_left _ hx
        rcases List.mem_cons.mp hz with rfl | hzd
        · exact bfull_last_max (l.take (c + 2)) x hxB _ hylast
        · exact h2 x ((bfull_perm _).subset hxB) z hzd

lemma alphabetize_sorted (l : List AudioFile) :
    List.Chain' keyLE (alphabetize l) := by
  unfold alphabetize
  by_cases h : l.length ≤ 1
  · rw [if_pos h]
    match l, h with
    | [], _ => exact List.chain'_nil
    | [a], _ => exact List.chain'_singleton a
  · rw [if_neg h]
    apply outerPasses_sorted
    · rw [Nat.sub_add_cancel (by omega), List.drop_length]
      exact List.chain'_nil
    · intro x hx y hy
      rw [Nat.sub_add_cancel (by omega), List.drop_length] at hy
      exact absurd hy (List.not_mem_nil y)

lemma bpass_sorted_id (c : Nat) (l : List AudioFile)
    (hs : List.Chain' keyLE l) : bpass c l = l := by
  induction c generalizing l with
  | zero => rw [bpass]
  | succ c ih =>
    match l, hs with
    | [], _ => rw [bpass]
    | [a], _ => rw [bpass]
    | a :: b :: rest, hs =>
      obtain ⟨hab, htl⟩ := List.chain'_cons.mp hs
      rw [bpass, if_neg (by rw [hab]; exact (by decide)), ih (b :: rest) htl]

lemma outerPasses_sorted_id (c : Nat) (l : List AudioFile)
    (hs : List.Chain' keyLE l) : outerPasses c l = l := by
  induction c with
  | zero => rw [outerPasses]
  | succ c ih => rw [outerPasses, bpass_sorted_id _ _ hs, ih]

lemma alphabetize_of_sorted (l : List AudioFile)
    (hs : List.Chain' keyLE l) : alphabetize l = l := by
  unfold alphabetize
  by_cases h : l.length ≤ 1
  · rw [if_pos h]
  · rw [if_neg h, outerPasses_sorted_id _ _ hs]

lemma bpass_filter (c : Nat) (l : List AudioFile) (k : String) :
    (bpass c l).filter (fun f => lkey f == k) =
      l.filter (fun f => lkey f == k) := by
  rw [bpass_eq, List.filter_append, bfull_filter, ← List.filter_append,
    List.take_append_drop]

lemma outerPasses_filter (c : Nat) (l : List AudioFile) (k : String) :
    (outerPasses c l).filter (fun f => lkey f == k) =
      l.filter (fun f => lkey f == k) := by
  induction c generalizing l with
  | zero => rw [outerPasses]
  | succ c ih => rw [outerPasses, ih, bpass_filter]

/-- C5: `alphabetize` is idempotent — sorting twice equals sorting once —
and stable: for every playlist and every case-insensitive key, the subsequence
of entries carrying that key is unchanged by the sort, i.e. entries with
case-insensitively equal display names keep their original relative order. -/
theorem alphabetize_idem_stable (l : List AudioFile) :
    alphabetize (alphabetize l) = alphabetize l ∧
    ∀ k : String,
      (alphabetize l).filter (fun f => lkey f == k) =
        l.filter (fun f => lkey f == k) := by
  constructor
  · exact alphabetize_of_sorted _ (alphabetize_sorted l)
  · intro k
    unfold alphabetize
    by_cases h : l.length ≤ 1
    · rw [if_pos h]
    · rw [if_neg h, outerPasses_filter]

example :
    alphabetize
      [⟨"1", "/m/b.mp3", "/c/1/b.mp3", "b.mp3"⟩,
       ⟨"2", "/m/A.mp3", "/c/2/A.mp3", "A.mp3"⟩,
       ⟨"3", "/m/a2.mp3", "/c/3/a2.mp3", "a2.mp3"⟩] =
      [⟨"2", "/m/A.mp3", "/c/2/A.mp3", "A.mp3"⟩,
       ⟨"3", "/m/a2.mp3", "/c/3/a2.mp3", "a2.mp3"⟩,
       ⟨"1", "/m/b.mp3", "/c/1/b.mp3", "b.mp3"⟩] := by decide
